import Mathlib

/-!
Formal model of the gRNA pipeline (gRNA_finder.py).

Strings of the program are modelled as `List Char`.  Python's `str.islower`
and `str.upper` act, on the ASCII alphabet the program works with, exactly as
`Char.isLower` and `Char.toUpper`.  Python slices with negative indices clamp
at zero, which is exactly the behaviour of truncated subtraction on `Nat`.
Exceptions (`ValueError`, `IndexError`) are modelled with `Except`: a run
that raises is a run that produces no output.
-/

namespace GRNA

/-- The complement table `str.maketrans("ATCG", "TAGC")`: each of A, T, C, G is
mapped to its Watson–Crick partner; every other character is left unchanged,
which is what Python's `str.translate` does for characters missing from the
table. -/
def complementChar (c : Char) : Char :=
  if c = 'A' then 'T'
  else if c = 'T' then 'A'
  else if c = 'C' then 'G'
  else if c = 'G' then 'C'
  else c

/-- `reverse_complement(seq)`: `seq.translate(DNA_COMPLEMENT)[::-1]`. -/
def reverse_complement (s : List Char) : List Char :=
  (s.map complementChar).reverse

/-- `count_mismatches(seq)`: number of lowercase characters in `seq`. -/
def count_mismatches (s : List Char) : Nat :=
  s.countP (fun c => c.isLower)

/-- `split_regions(seq)`: `seq[:-15], seq[-15:-3], seq[-3:]` with Python's
clamping slice semantics (`s[a:b] = s[max(0,len+a):max(0,len+b)]` for negative
`a`, `b`), rendered with truncated subtraction on `Nat`. -/
def split_regions (s : List Char) : List Char × List Char × List Char :=
  (s.take (s.length - 15),
   (s.drop (s.length - 15)).take ((s.length - 3) - (s.length - 15)),
   s.drop (s.length - 3))

/-- `passes_stringency(dna_seq, level)`: `some b` with `b = true` when the
off-target is disqualifying at the given level; `none` models the
`ValueError` raised on an unrecognized level. -/
def passes_stringency (seq : List Char) (level : String) : Option Bool :=
  let r := split_regions seq
  let dmm := count_mismatches r.1
  let pmm := count_mismatches r.2.1
  if level = "high" then
    some (pmm == 0 || (pmm == 1 && decide (dmm < 2)))
  else if level = "maximum" then
    some (pmm == 0 || (pmm == 1 && decide (dmm < 5)) || (pmm == 2 && decide (dmm < 2)))
  else
    none

/-- Number of lowercase characters in the proximal zone of a
mismatch-annotated sequence: positions -15 to -4 from the 3-prime end,
i.e. the 12 characters starting at index `length - 15`. -/
def proximalMM (s : List Char) : Nat :=
  count_mismatches ((s.drop (s.length - 15)).take 12)

/-- Number of lowercase characters in the distal zone: all positions before
the proximal zone. -/
def distalMM (s : List Char) : Nat :=
  count_mismatches (s.take (s.length - 15))

/-! ### Candidate Finder -/

/-- A plain DNA base, the character class of the search pattern. -/
def isACGT (c : Char) : Bool :=
  c = 'A' || c = 'T' || c = 'G' || c = 'C'

/-- Python `str.upper` on the ASCII range. -/
def pyUpper (c : Char) : Char := c.toUpper

/-- The window of length `L + 3` starting at each offset of `s`; windows at
the right edge come out shorter and are rejected by the length test of the
match predicates, so this models the regex engine trying every offset. -/
def windowsAt (L : Nat) (s : List Char) : List (List Char) :=
  (List.range s.length).map (fun i => (s.drop i).take (L + 3))

/-- The lookahead-captured pattern of the source,
`[ATGC]` repeated `gRNA_length` times then `[ATGC]GG`, applied to one window:
full length `L + 3`, the first `L + 1` characters plain bases, then `GG`. -/
def regexWindow (L : Nat) (w : List Char) : Bool :=
  decide (w.length = L + 3) && (w.take (L + 1)).all isACGT
    && decide (w.drop (L + 1) = ['G', 'G'])

/-- All matches of the overlap-permitting scan, in left-to-right offset
order, duplicates preserved. -/
def scanMatches (L : Nat) (s : List Char) : List (List Char) :=
  (windowsAt L s).filter (regexWindow L)

/-- `find_gRNA_candidates` on the content of the input file: guard on the
minimum length, uppercase, scan both the sequence and its reverse
complement, and drop reverse hits whose reverse complement is already a
forward hit. -/
def find_gRNA_candidates (L : Nat) (content : List Char) :
    Except String (List (List Char)) :=
  if L < 12 then
    .error "Invalid gRNA length: must be >= 12 nt"
  else
    .ok (scanMatches L (content.map pyUpper)
      ++ (scanMatches L (reverse_complement (content.map pyUpper))).filter
          (fun m =>
            decide (reverse_complement m ∉ scanMatches L (content.map pyUpper))))

/-- Window test as the spec words it: a window of full length `L + 3` whose
last three characters match N G G with N a plain base. -/
def pamWindow (L : Nat) (w : List Char) : Bool :=
  decide (w.length = L + 3) && ((w.drop L).take 1).all isACGT
    && decide (w.drop (L + 1) = ['G', 'G'])

/-- The forward set as the spec words it. -/
def pamMatches (L : Nat) (s : List Char) : List (List Char) :=
  (windowsAt L s).filter (pamWindow L)

/-- Candidate list as the spec words it: forward set, then the reverse-set
entries whose reverse complement is not among the forward sequences. -/
def specCandidates (L : Nat) (content : List Char) : List (List Char) :=
  pamMatches L (content.map pyUpper)
    ++ (pamMatches L (reverse_complement (content.map pyUpper))).filter
        (fun m =>
          decide (reverse_complement m ∉ pamMatches L (content.map pyUpper)))

/-! ### Off-Target Classifier -/

/-- One grouped record of the classifier: the full data line together with
its aligned sequence (tab column 3), exactly the pair stored per guide by
the grouping loop. -/
abbrev Row := List Char × List Char

/-- The two exceptions the classifier can raise: `IndexError` from `cols[3]`
on a short row, `ValueError` (carrying the level) from an unrecognized
stringency level. -/
inductive PyError where
  | indexError : PyError
  | valueError : String → PyError
deriving DecidableEq

/-- The whitespace class of Python `str.strip`. -/
def isPySpace (c : Char) : Bool :=
  c = ' ' || c = '\t' || c = '\n' || c = '\r' || c = '\x0B' || c = '\x0C'

/-- Remove trailing whitespace. -/
def dropTrail (s : List Char) : List Char :=
  (s.reverse.dropWhile isPySpace).reverse

/-- Python `line.strip()`. -/
def pyStrip (s : List Char) : List Char :=
  dropTrail (s.dropWhile isPySpace)

/-- Python `line.split("\t")`: the list of tab-separated fields, always at
least one field. -/
def splitTab : List Char → List (List Char)
  | [] => [[]]
  | c :: rest =>
    if c = '\t' then [] :: splitTab rest
    else
      match splitTab rest with
      | [] => [[c]]
      | f :: fs => (c :: f) :: fs

/-- Python `line.startswith("#")`. -/
def startsHash : List Char → Bool
  | [] => false
  | c :: _ => c = '#'

/-- `cols[0]`: the guide identifier of a data row (a split is never empty). -/
def rowId (line : List Char) : List Char := (splitTab line).headD []

/-- `cols[3]`: the aligned sequence of a well-formed data row. -/
def rowSeq (line : List Char) : List Char := (splitTab line).getD 3 []

/-- A data row is well-formed when it has at least four tab fields, so that
`cols[3]` does not raise. -/
def rowOk (line : List Char) : Bool := decide (4 ≤ (splitTab line).length)

/-- Append a record under its key in the ordered grouping (`defaultdict`
preserves first-occurrence key order; rows append in input order). -/
def addRecord (gs : List (List Char × List Row)) (k : List Char) (r : Row) :
    List (List Char × List Row) :=
  match gs with
  | [] => [(k, [r])]
  | (k₀, rs) :: rest =>
    if k₀ = k then (k₀, rs ++ [r]) :: rest
    else (k₀, rs) :: addRecord rest k r

/-- The grouping loop of `filter_offtargets`: every entry is parsed before
any classification; `cols[3]` on a row with fewer than four fields raises
IndexError. -/
def buildGroupsAux (acc : List (List Char × List Row)) :
    List (List Char) → Except PyError (List (List Char × List Row))
  | [] => .ok acc
  | line :: rest =>
    match (splitTab line)[3]? with
    | none => .error .indexError
    | some seq => buildGroupsAux (addRecord acc (rowId line) (line, seq)) rest

def buildGroups (entries : List (List Char)) :
    Except PyError (List (List Char × List Row)) :=
  buildGroupsAux [] entries

/-- The per-group loop: `has_on_target` starts false; a zero-mismatch row
sets it and is never evaluated against the stringency test; the first
disqualifying row breaks out of the loop and the group is rejected; an
unrecognized level raises ValueError at the first row it is evaluated on.
The returned boolean is `has_on_target and not exclude`. -/
def groupDecide (level : String) : List Row → Bool → Except PyError Bool
  | [], hasOn => .ok hasOn
  | r :: rest, hasOn =>
    if count_mismatches r.2 = 0 then groupDecide level rest true
    else
      match passes_stringency r.2 level with
      | none => .error (.valueError level)
      | some true => .ok false
      | some false => groupDecide level rest hasOn

/-- The literal on-target marker appended to zero-mismatch rows. -/
def onTargetMark : List Char := [' ', '#', ' ', '0', 'M', 'M']

/-- Emission of one accepted row: `line + (" # 0MM" if mm == 0 else "")`. -/
def annotateRow (r : Row) : List Char :=
  if count_mismatches r.2 = 0 then r.1 ++ onTargetMark else r.1

/-- The accept/emit loop over the groups, in grouping order: accepted groups
contribute their annotated rows and their identifier. -/
def processGroups (level : String) :
    List (List Char × List Row) → Except PyError (List (List Char) × List (List Char))
  | [] => .ok ([], [])
  | (k, rs) :: rest =>
    match groupDecide level rs false with
    | .error e => .error e
    | .ok false => processGroups level rest
    | .ok true =>
      match processGroups level rest with
      | .error e => .error e
      | .ok (ls, ids) => .ok (rs.map annotateRow ++ ls, k :: ids)

/-- What a successful classifier run writes: the output lines, and the list
of accepted guide identifiers it reports. -/
structure FilterResult where
  outputLines : List (List Char)
  acceptedIds : List (List Char)
deriving DecidableEq

/-- `[line.strip() for line in f if line.strip()]`. -/
def normLines (input : List (List Char)) : List (List Char) :=
  (input.map pyStrip).filter (fun l => !l.isEmpty)

/-- The header/comment lines. -/
def headersOf (input : List (List Char)) : List (List Char) :=
  (normLines input).filter startsHash

/-- The data rows. -/
def entriesOf (input : List (List Char)) : List (List Char) :=
  (normLines input).filter (fun l => !startsHash l)

/-- `filter_offtargets` on the list of input lines: strip and drop blank
lines, separate headers, group all data rows, decide each group, and on
success write headers followed by the annotated rows of accepted groups. -/
def filter_offtargets (input : List (List Char)) (level : String) :
    Except PyError FilterResult :=
  match buildGroups (entriesOf input) with
  | .error e => .error e
  | .ok groups =>
    match processGroups level groups with
    | .error e => .error e
    | .ok (ls, ids) => .ok ⟨headersOf input ++ ls, ids⟩

/-- One grouping step on a well-formed row. -/
def groupStep (acc : List (List Char × List Row)) (l : List Char) :
    List (List Char × List Row) :=
  addRecord acc (rowId l) (l, rowSeq l)

/-- Pure grouping: what the grouping loop builds when every row is
well-formed. -/
def pureGroups (entries : List (List Char)) : List (List Char × List Row) :=
  entries.foldl groupStep []

/-- The disqualification boolean at a recognized level. -/
def disqB (level : String) (seq : List Char) : Bool :=
  (passes_stringency seq level).getD false

/-- Pure mirror of the group loop at a recognized level. -/
def acceptB (level : String) : List Row → Bool → Bool
  | [], hasOn => hasOn
  | r :: rest, hasOn =>
    if count_mismatches r.2 = 0 then acceptB level rest true
    else if disqB level r.2 then false
    else acceptB level rest hasOn

/-- The accepted groups of an input, in grouping order. -/
def acceptedGroupsOf (level : String) (input : List (List Char)) :
    List (List Char × List Row) :=
  (pureGroups (entriesOf input)).filter (fun g => acceptB level g.2 false)

/-- Group acceptance as the spec words it: at least one zero-mismatch row,
and no row with mismatches satisfies the disqualification predicate. -/
def groupAcceptP (level : String) (rs : List Row) : Prop :=
  (∃ r ∈ rs, count_mismatches r.2 = 0)
    ∧ ∀ r ∈ rs, count_mismatches r.2 ≠ 0 → ¬ passes_stringency r.2 level = some true

/-- The recognized stringency levels. -/
def validLevel (level : String) : Prop := level = "high" ∨ level = "maximum"

/-- Extend the last field of a field list (the effect on `splitTab` of
appending tab-free text to a line). -/
def extendLast (sfx : List Char) : List (List Char) → List (List Char)
  | [] => [sfx]
  | [f] => [f ++ sfx]
  | f :: fs => f :: extendLast sfx fs

/-- A line with no leading and no trailing whitespace (the shape of every
line `pyStrip` produces). -/
def noEdgeSpace (l : List Char) : Prop :=
  (∀ c, l.head? = some c → isPySpace c = false)
    ∧ (∀ c, l.getLast? = some c → isPySpace c = false)

/-! ### Theorems: utilities and region split -/

/-- C10: `split_regions` is total; the three returned pieces concatenate back
to the input; for input length at least 15 their lengths are exactly
`(length - 15, 12, 3)`, and for shorter inputs the zones silently shrink
(lengths `length - 15`, `min 12 (length - 3)`, `min 3 length`) instead of
erroring. -/
theorem split_regions_total_concat (s : List Char) :
    (split_regions s).1 ++ (split_regions s).2.1 ++ (split_regions s).2.2 = s
    ∧ (split_regions s).1.length = s.length - 15
    ∧ (split_regions s).2.1.length = min 12 (s.length - 3)
    ∧ (split_regions s).2.2.length = min 3 s.length
    ∧ (15 ≤ s.length →
        (split_regions s).1.length = s.length - 15
        ∧ (split_regions s).2.1.length = 12
        ∧ (split_regions s).2.2.length = 3) := by
  have hconcat :
      (split_regions s).1 ++ (split_regions s).2.1 ++ (split_regions s).2.2 = s := by
    have hdrop : s.drop (s.length - 3) =
        (s.drop (s.length - 15)).drop ((s.length - 3) - (s.length - 15)) := by
      rw [List.drop_drop]
      congr 1
      omega
    show s.take (s.length - 15)
        ++ (s.drop (s.length - 15)).take ((s.length - 3) - (s.length - 15))
        ++ s.drop (s.length - 3) = s
    rw [List.append_assoc, hdrop, List.take_append_drop, List.take_append_drop]
  have h1 : (split_regions s).1.length = s.length - 15 := by
    simp only [split_regions, List.length_take]
    omega
  have h2 : (split_regions s).2.1.length = min 12 (s.length - 3) := by
    simp only [split_regions, List.length_take, List.length_drop]
    omega
  have h3 : (split_regions s).2.2.length = min 3 s.length := by
    simp only [split_regions, List.length_drop]
    omega
  exact ⟨hconcat, h1, h2, h3, fun h => ⟨h1, by omega, by omega⟩⟩

/-- Witness for `split_regions_total_concat` at a concrete length-20 input. -/
theorem split_regions_total_concat_wit :
    (split_regions (List.replicate 20 'A')).1 ++ (split_regions (List.replicate 20 'A')).2.1
        ++ (split_regions (List.replicate 20 'A')).2.2 = List.replicate 20 'A'
    ∧ (15 ≤ (List.replicate 20 'A').length →
        (split_regions (List.replicate 20 'A')).1.length = (List.replicate 20 'A').length - 15
        ∧ (split_regions (List.replicate 20 'A')).2.1.length = 12
        ∧ (split_regions (List.replicate 20 'A')).2.2.length = 3) :=
  ⟨(split_regions_total_concat (List.replicate 20 'A')).1,
   (split_regions_total_concat (List.replicate 20 'A')).2.2.2.2⟩

theorem complementChar_involutive (c : Char) :
    complementChar (complementChar c) = c := by
  by_cases h1 : c = 'A'
  · subst h1; rfl
  by_cases h2 : c = 'T'
  · subst h2; rfl
  by_cases h3 : c = 'C'
  · subst h3; rfl
  by_cases h4 : c = 'G'
  · subst h4; rfl
  have hc : complementChar c = c := by
    simp [complementChar, h1, h2, h3, h4]
  rw [hc, hc]

/-- C8: for every sequence over the alphabet {A,C,G,T}, applying
`reverse_complement` twice returns the original sequence. -/
theorem reverse_complement_involution (s : List Char)
    (_h : ∀ c ∈ s, c = 'A' ∨ c = 'C' ∨ c = 'G' ∨ c = 'T') :
    reverse_complement (reverse_complement s) = s := by
  unfold reverse_complement
  rw [List.map_reverse, List.reverse_reverse, List.map_map]
  have : ∀ c ∈ s, (complementChar ∘ complementChar) c = id c := by
    intro c _
    simp [complementChar_involutive c]
  rw [List.map_congr_left this, List.map_id]

/-- Witness for `reverse_complement_involution` at the sequence ACGT. -/
theorem reverse_complement_involution_wit :
    reverse_complement (reverse_complement ['A', 'C', 'G', 'T']) = ['A', 'C', 'G', 'T'] :=
  reverse_complement_involution ['A', 'C', 'G', 'T'] (by decide)

/-- C1: for every mismatch-annotated sequence of length at least 15, with
`p` the lowercase count in the proximal zone and `d` the lowercase count in
the distal zone, disqualification at level high holds iff
`p = 0 ∨ (p = 1 ∧ d < 2)`, and at level maximum iff
`p = 0 ∨ (p = 1 ∧ d < 5) ∨ (p = 2 ∧ d < 2)`. -/
theorem stringency_rule (s : List Char) (h : 15 ≤ s.length) :
    (passes_stringency s "high" = some true ↔
      (proximalMM s = 0 ∨ (proximalMM s = 1 ∧ distalMM s < 2)))
    ∧ (passes_stringency s "maximum" = some true ↔
      (proximalMM s = 0 ∨ (proximalMM s = 1 ∧ distalMM s < 5)
        ∨ (proximalMM s = 2 ∧ distalMM s < 2))) := by
  have hk : (s.length - 3) - (s.length - 15) = 12 := by omega
  constructor
  · simp [passes_stringency, split_regions, hk, proximalMM, distalMM]
  · simp only [passes_stringency, split_regions, hk, proximalMM, distalMM]
    simp
    tauto

/-- Witness for `stringency_rule` at a concrete sequence with one proximal
mismatch and no distal mismatch. -/
theorem stringency_rule_wit :
    (passes_stringency ('a' :: List.replicate 14 'A') "high" = some true ↔
      (proximalMM ('a' :: List.replicate 14 'A') = 0
        ∨ (proximalMM ('a' :: List.replicate 14 'A') = 1
            ∧ distalMM ('a' :: List.replicate 14 'A') < 2)))
    ∧ (passes_stringency ('a' :: List.replicate 14 'A') "maximum" = some true ↔
      (proximalMM ('a' :: List.replicate 14 'A') = 0
        ∨ (proximalMM ('a' :: List.replicate 14 'A') = 1
            ∧ distalMM ('a' :: List.replicate 14 'A') < 5)
        ∨ (proximalMM ('a' :: List.replicate 14 'A') = 2
            ∧ distalMM ('a' :: List.replicate 14 'A') < 2))) :=
  stringency_rule ('a' :: List.replicate 14 'A') (by decide)

/-! ### Theorems: Candidate Finder -/

theorem regexWindow_eq_pamWindow (L : Nat) (w : List Char)
    (h : ∀ c ∈ w, isACGT c = true) : regexWindow L w = pamWindow L w := by
  unfold regexWindow pamWindow
  have h1 : (w.take (L + 1)).all isACGT = true :=
    List.all_eq_true.mpr (fun c hc => h c (List.take_subset _ _ hc))
  have h2 : ((w.drop L).take 1).all isACGT = true :=
    List.all_eq_true.mpr
      (fun c hc => h c (List.drop_subset _ _ (List.take_subset _ _ hc)))
  rw [h1, h2]

theorem scanMatches_eq_pamMatches (L : Nat) (s : List Char)
    (h : ∀ c ∈ s, isACGT c = true) : scanMatches L s = pamMatches L s := by
  unfold scanMatches pamMatches
  apply List.filter_congr
  intro w hw
  apply regexWindow_eq_pamWindow
  intro c hc
  obtain ⟨i, _, rfl⟩ := List.mem_map.mp hw
  exact h c (List.drop_subset _ _ (List.take_subset _ _ hc))

theorem isACGT_complementChar (c : Char) (h : isACGT c = true) :
    isACGT (complementChar c) = true := by
  simp only [isACGT, Bool.or_eq_true, decide_eq_true_eq] at h
  rcases h with ((h | h) | h) | h <;> subst h <;> decide

/-- C5: on every input over the DNA alphabet (either case) and every legal
protospacer length, the finder's output is exactly the forward set of the
spec's scan (windows whose last three characters match N G G), followed by
the reverse-scan entries whose reverse complement is not among the forward
sequences, each side in offset order with duplicates preserved. -/
theorem candidates_match_spec (L : Nat) (content : List Char) (hL : 12 ≤ L)
    (h : ∀ c ∈ content, c ∈ (['A', 'C', 'G', 'T', 'a', 'c', 'g', 't'] : List Char)) :
    find_gRNA_candidates L content = .ok (specCandidates L content) := by
  have hnot : ¬ L < 12 := by omega
  have hs : ∀ c ∈ content.map pyUpper, isACGT c = true := by
    intro c hc
    obtain ⟨d, hd, rfl⟩ := List.mem_map.mp hc
    have := h d hd
    fin_cases this <;> decide
  have hrc : ∀ c ∈ reverse_complement (content.map pyUpper), isACGT c = true := by
    intro c hc
    rw [reverse_complement, List.mem_reverse] at hc
    obtain ⟨d, hd, rfl⟩ := List.mem_map.mp hc
    exact isACGT_complementChar d (hs d hd)
  have e1 : scanMatches L (content.map pyUpper) = pamMatches L (content.map pyUpper) :=
    scanMatches_eq_pamMatches L _ hs
  have e2 : scanMatches L (reverse_complement (content.map pyUpper))
      = pamMatches L (reverse_complement (content.map pyUpper)) :=
    scanMatches_eq_pamMatches L _ hrc
  unfold find_gRNA_candidates specCandidates
  rw [if_neg hnot]
  simp only [e1, e2]

/-- Witness for `candidates_match_spec` at the spec's concrete scenario 1:
21 A's followed by GG, protospacer length 20. -/
theorem candidates_match_spec_wit :
    find_gRNA_candidates 20 (List.replicate 21 'A' ++ ['G', 'G'])
      = .ok (specCandidates 20 (List.replicate 21 'A' ++ ['G', 'G'])) :=
  candidates_match_spec 20 (List.replicate 21 'A' ++ ['G', 'G'])
    (by decide) (by decide)

/-- C9: for every protospacer length below 12, the finder fails with the
invalid-parameter error no matter what the input content is (the content is
never consulted). -/
theorem short_length_rejected (L : Nat) (content : List Char) (h : L < 12) :
    find_gRNA_candidates L content = .error "Invalid gRNA length: must be >= 12 nt" := by
  unfold find_gRNA_candidates
  rw [if_pos h]

/-- Witness for `short_length_rejected` at length 11. -/
theorem short_length_rejected_wit :
    find_gRNA_candidates 11 ['A'] = .error "Invalid gRNA length: must be >= 12 nt" :=
  short_length_rejected 11 ['A'] (by decide)

/-! ### Theorems: string utilities of the classifier -/

theorem count_mismatches_append (a b : List Char) :
    count_mismatches (a ++ b) = count_mismatches a + count_mismatches b := by
  simp [count_mismatches, List.countP_append]

theorem count_mismatches_mark : count_mismatches onTargetMark = 0 := by decide

theorem splitTab_ne_nil (l : List Char) : splitTab l ≠ [] := by
  induction l with
  | nil => simp [splitTab]
  | cons c rest ih =>
    simp only [splitTab]
    split
    · simp
    · split
      · simp
      · simp

theorem splitTab_no_tab (b : List Char) (h : '\t' ∉ b) : splitTab b = [b] := by
  induction b with
  | nil => rfl
  | cons c rest ih =>
    have hc : ¬ c = '\t' := fun hh => h (hh ▸ List.mem_cons_self _ _)
    have hr : '\t' ∉ rest := fun hh => h (List.mem_cons_of_mem _ hh)
    simp [splitTab, if_neg hc, ih hr]

theorem extendLast_cons (sfx f : List Char) (fs : List (List Char)) (h : fs ≠ []) :
    extendLast sfx (f :: fs) = f :: extendLast sfx fs := by
  cases fs with
  | nil => exact absurd rfl h
  | cons g fs => rfl

theorem extendLast_length (sfx : List Char) (fs : List (List Char)) (h : fs ≠ []) :
    (extendLast sfx fs).length = fs.length := by
  induction fs with
  | nil => exact absurd rfl h
  | cons f fs ih =>
    cases fs with
    | nil => rfl
    | cons g fs₀ =>
      rw [extendLast_cons _ _ _ (by simp)]
      simp only [List.length_cons]
      rw [ih (by simp)]
      simp

theorem extendLast_getD3 (sfx f0 f1 f2 f3 : List Char) (fs : List (List Char)) :
    (extendLast sfx (f0 :: f1 :: f2 :: f3 :: fs)).getD 3 []
      = if fs = [] then f3 ++ sfx else f3 := by
  cases fs with
  | nil => rfl
  | cons g fs₀ =>
    rw [if_neg (by simp)]
    rfl

theorem splitTab_append (sfx : List Char) (h : '\t' ∉ sfx) (a : List Char) :
    splitTab (a ++ sfx) = extendLast sfx (splitTab a) := by
  induction a with
  | nil =>
    simp only [List.nil_append, splitTab_no_tab sfx h]
    rfl
  | cons c a ih =>
    by_cases hc : c = '\t'
    · subst hc
      have e1 : ∀ x : List Char, splitTab ('\t' :: x) = [] :: splitTab x := by
        intro x
        simp [splitTab]
      rw [List.cons_append, e1, e1, ih, extendLast_cons _ _ _ (splitTab_ne_nil a)]
    · have e2 : ∀ x : List Char, splitTab (c :: x)
          = match splitTab x with
            | [] => [[c]]
            | f :: fs => (c :: f) :: fs := by
        intro x
        simp [splitTab, hc]
      obtain ⟨f, fs, he⟩ : ∃ f fs, splitTab a = f :: fs := by
        rcases hsp : splitTab a with _ | ⟨f, fs⟩
        · exact absurd hsp (splitTab_ne_nil a)
        · exact ⟨f, fs, rfl⟩
      rw [List.cons_append, e2, e2, ih, he]
      cases fs with
      | nil => rfl
      | cons g fs₀ => rfl

theorem rowOk_append_mark (l : List Char) (h : rowOk l = true) :
    rowOk (l ++ onTargetMark) = true := by
  have hm : '\t' ∉ onTargetMark := by decide
  unfold rowOk at h ⊢
  rw [splitTab_append onTargetMark hm l, extendLast_length _ _ (splitTab_ne_nil l)]
  exact h

theorem rowOk_four (l : List Char) (h : rowOk l = true) :
    ∃ f0 f1 f2 f3 fs, splitTab l = f0 :: f1 :: f2 :: f3 :: fs := by
  unfold rowOk at h
  rcases hsp : splitTab l with _ | ⟨f0, _ | ⟨f1, _ | ⟨f2, _ | ⟨f3, fs⟩⟩⟩⟩ <;>
    rw [hsp] at h <;> simp at h
  exact ⟨f0, f1, f2, f3, fs, rfl⟩

theorem rowId_append_mark (l : List Char) (h : rowOk l = true) :
    rowId (l ++ onTargetMark) = rowId l := by
  have hm : '\t' ∉ onTargetMark := by decide
  obtain ⟨f0, f1, f2, f3, fs, hsp⟩ := rowOk_four l h
  unfold rowId
  rw [splitTab_append onTargetMark hm l, hsp]
  rw [extendLast_cons _ _ _ (by simp)]
  rfl

theorem rowSeq_append_mark (l : List Char) (h : rowOk l = true) :
    rowSeq (l ++ onTargetMark) = rowSeq l
      ∨ rowSeq (l ++ onTargetMark) = rowSeq l ++ onTargetMark := by
  have hm : '\t' ∉ onTargetMark := by decide
  obtain ⟨f0, f1, f2, f3, fs, hsp⟩ := rowOk_four l h
  unfold rowSeq
  rw [splitTab_append onTargetMark hm l, hsp, extendLast_getD3]
  by_cases hfs : fs = []
  · right
    rw [if_pos hfs]
    subst hfs
    rfl
  · left
    rw [if_neg hfs]
    cases fs with
    | nil => exact absurd rfl hfs
    | cons g fs₀ => rfl

theorem startsHash_append (l m : List Char) (h : l ≠ []) :
    startsHash (l ++ m) = startsHash l := by
  cases l with
  | nil => exact absurd rfl h
  | cons c rest => rfl

theorem dropWhile_suffix (p : Char → Bool) (l : List Char) : l.dropWhile p <:+ l := by
  induction l with
  | nil => exact List.suffix_rfl
  | cons c rest ih =>
    by_cases hc : p c
    · rw [List.dropWhile_cons, if_pos hc]
      exact ih.trans (List.suffix_cons c rest)
    · rw [List.dropWhile_cons, if_neg hc]

theorem head_dropWhile_false (p : Char → Bool) (l : List Char) (c : Char)
    (h : (l.dropWhile p).head? = some c) : p c = false := by
  induction l with
  | nil => simp at h
  | cons d rest ih =>
    rw [List.dropWhile_cons] at h
    by_cases hd : p d
    · rw [if_pos hd] at h
      exact ih h
    · rw [if_neg hd] at h
      simp at h
      subst h
      simpa using hd

theorem dropWhile_eq_self (p : Char → Bool) (l : List Char)
    (h : ∀ c, l.head? = some c → p c = false) : l.dropWhile p = l := by
  cases l with
  | nil => rfl
  | cons c rest =>
    have hc : p c = false := h c rfl
    rw [List.dropWhile_cons, if_neg (by simp [hc])]

theorem pyStrip_of_noEdge (l : List Char) (h : noEdgeSpace l) : pyStrip l = l := by
  unfold pyStrip dropTrail
  rw [dropWhile_eq_self _ _ h.1]
  rw [dropWhile_eq_self _ _ (fun c hc => h.2 c (by rwa [List.head?_reverse] at hc))]
  exact List.reverse_reverse l

theorem noEdgeSpace_pyStrip (l : List Char) : noEdgeSpace (pyStrip l) := by
  constructor
  · intro c hc
    have hpre : pyStrip l <+: l.dropWhile isPySpace := by
      have h2 : ((l.dropWhile isPySpace).reverse.dropWhile isPySpace).reverse
          <+: ((l.dropWhile isPySpace).reverse).reverse :=
        List.reverse_prefix.mpr (dropWhile_suffix _ _)
      rw [List.reverse_reverse] at h2
      exact h2
    obtain ⟨r, hr⟩ := hpre
    apply head_dropWhile_false isPySpace l c
    rw [← hr]
    cases hps : pyStrip l with
    | nil => rw [hps] at hc; simp at hc
    | cons d rest =>
      rw [hps] at hc
      simp only [List.head?_cons, Option.some.injEq] at hc
      cases hc
      rfl
  · intro c hc
    unfold pyStrip dropTrail at hc
    rw [List.getLast?_reverse] at hc
    exact head_dropWhile_false isPySpace _ c hc

theorem markRev : onTargetMark.reverse = ['M', 'M', '0', ' ', '#', ' '] := by decide

theorem noEdgeSpace_append_mark (l : List Char) (h : noEdgeSpace l) (hne : l ≠ []) :
    noEdgeSpace (l ++ onTargetMark) := by
  constructor
  · intro c hc
    cases l with
    | nil => exact absurd rfl hne
    | cons d rest =>
      simp only [List.cons_append, List.head?_cons, Option.some.injEq] at hc
      cases hc
      exact h.1 _ rfl
  · intro c hc
    rw [← List.head?_reverse, List.reverse_append, markRev] at hc
    simp only [List.cons_append, List.head?_cons, Option.some.injEq] at hc
    cases hc
    decide

/-! ### Theorems: grouping -/

theorem getElem3_of_rowOk (l : List Char) (h : rowOk l = true) :
    (splitTab l)[3]? = some (rowSeq l) := by
  obtain ⟨f0, f1, f2, f3, fs, hsp⟩ := rowOk_four l h
  unfold rowSeq
  rw [hsp]
  simp

theorem getElem3_none (l : List Char) (h : rowOk l = false) :
    (splitTab l)[3]? = none := by
  unfold rowOk at h
  simp only [decide_eq_false_iff_not, not_le] at h
  exact List.getElem?_eq_none (by omega)

theorem buildGroupsAux_ok (entries : List (List Char))
    (h : ∀ l ∈ entries, rowOk l = true) (acc : List (List Char × List Row)) :
    buildGroupsAux acc entries = .ok (entries.foldl groupStep acc) := by
  induction entries generalizing acc with
  | nil => rfl
  | cons l rest ih =>
    have hl := h l (by simp)
    simp only [buildGroupsAux, getElem3_of_rowOk l hl]
    rw [List.foldl_cons]
    exact ih (fun x hx => h x (by simp [hx])) _

theorem buildGroups_ok (entries : List (List Char))
    (h : ∀ l ∈ entries, rowOk l = true) :
    buildGroups entries = .ok (pureGroups entries) :=
  buildGroupsAux_ok entries h []

theorem buildGroupsAux_err (entries : List (List Char))
    (h : ∃ l ∈ entries, rowOk l = false) (acc : List (List Char × List Row)) :
    buildGroupsAux acc entries = .error .indexError := by
  induction entries generalizing acc with
  | nil => simp at h
  | cons l rest ih =>
    by_cases hl : rowOk l = true
    · obtain ⟨x, hx, hxf⟩ := h
      rcases List.mem_cons.mp hx with rfl | hx
      · rw [hl] at hxf
        cases hxf
      · simp only [buildGroupsAux, getElem3_of_rowOk l hl]
        exact ih ⟨x, hx, hxf⟩ _
    · simp only [Bool.not_eq_true] at hl
      simp only [buildGroupsAux, getElem3_none l hl]

theorem buildGroups_err (entries : List (List Char))
    (h : ∃ l ∈ entries, rowOk l = false) :
    buildGroups entries = .error .indexError :=
  buildGroupsAux_err entries h []

theorem addRecord_fresh (gs : List (List Char × List Row)) (k : List Char) (r : Row)
    (h : k ∉ gs.map Prod.fst) : addRecord gs k r = gs ++ [(k, [r])] := by
  induction gs with
  | nil => rfl
  | cons g rest ih =>
    obtain ⟨k0, rs⟩ := g
    have hne : k0 ≠ k := fun he => h (by simp [he])
    simp only [addRecord, if_neg hne]
    rw [ih (fun hm => h (by simp [hm]))]
    rfl

theorem addRecord_last (gs : List (List Char × List Row)) (k : List Char)
    (rs0 : List Row) (r : Row) (h : k ∉ gs.map Prod.fst) :
    addRecord (gs ++ [(k, rs0)]) k r = gs ++ [(k, rs0 ++ [r])] := by
  induction gs with
  | nil => simp [addRecord]
  | cons g rest ih =>
    obtain ⟨k0, rs⟩ := g
    have hne : k0 ≠ k := fun he => h (by simp [he])
    simp only [List.cons_append, addRecord, if_neg hne, List.append_eq]
    rw [ih (fun hm => h (by simp [hm]))]

theorem addRecord_keys (gs : List (List Char × List Row)) (k : List Char) (r : Row) :
    (addRecord gs k r).map Prod.fst
      = if k ∈ gs.map Prod.fst then gs.map Prod.fst else gs.map Prod.fst ++ [k] := by
  induction gs with
  | nil => simp [addRecord]
  | cons g rest ih =>
    obtain ⟨k0, rs⟩ := g
    by_cases he : k0 = k
    · subst he
      simp [addRecord]
    · simp only [addRecord, if_neg he, List.map_cons, ih]
      by_cases hm : k ∈ rest.map Prod.fst
      · rw [if_pos hm, if_pos (by simp [hm])]
      · rw [if_neg hm, if_neg ?hnm]
        · rfl
        case hnm =>
          intro hcon
          rcases List.mem_cons.mp hcon with h1 | h1
          · exact he h1.symm
          · exact hm h1

theorem addRecord_keys_nodup (gs : List (List Char × List Row)) (k : List Char) (r : Row)
    (h : (gs.map Prod.fst).Nodup) : ((addRecord gs k r).map Prod.fst).Nodup := by
  rw [addRecord_keys]
  by_cases hm : k ∈ gs.map Prod.fst
  · rwa [if_pos hm]
  · rw [if_neg hm, List.nodup_append]
    exact ⟨h, List.nodup_singleton k,
      fun a ha hb => hm ((List.mem_singleton.mp hb) ▸ ha)⟩

theorem addRecord_rows (Q : List Char → Row → Prop)
    (gs : List (List Char × List Row)) (k : List Char) (r : Row)
    (hgs : ∀ g ∈ gs, ∀ x ∈ g.2, Q g.1 x) (hr : Q k r) :
    ∀ g ∈ addRecord gs k r, ∀ x ∈ g.2, Q g.1 x := by
  induction gs with
  | nil =>
    intro g hg x hx
    simp only [addRecord, List.mem_singleton] at hg
    subst hg
    simp only [List.mem_singleton] at hx
    subst hx
    exact hr
  | cons g0 rest ih =>
    obtain ⟨k0, rs⟩ := g0
    by_cases he : k0 = k
    · subst he
      intro g hg x hx
      simp only [addRecord, if_pos rfl] at hg
      rcases List.mem_cons.mp hg with rfl | hg
      · rcases List.mem_append.mp hx with hx | hx
        · exact hgs (k0, rs) (by simp) x hx
        · rw [List.mem_singleton.mp hx]
          exact hr
      · exact hgs g (List.mem_cons_of_mem _ hg) x hx
    · intro g hg x hx
      simp only [addRecord, if_neg he] at hg
      rcases List.mem_cons.mp hg with rfl | hg
      · exact hgs (k0, rs) (by simp) x hx
      · exact ih (fun g1 hg1 => hgs g1 (List.mem_cons_of_mem _ hg1)) g hg x hx

theorem addRecord_nonempty (gs : List (List Char × List Row)) (k : List Char) (r : Row)
    (h : ∀ g ∈ gs, g.2 ≠ []) : ∀ g ∈ addRecord gs k r, g.2 ≠ [] := by
  induction gs with
  | nil =>
    intro g hg
    simp only [addRecord, List.mem_singleton] at hg
    subst hg
    simp
  | cons g0 rest ih =>
    obtain ⟨k0, rs⟩ := g0
    by_cases he : k0 = k
    · subst he
      intro g hg
      simp only [addRecord, if_pos rfl] at hg
      rcases List.mem_cons.mp hg with rfl | hg
      · simp
      · exact h g (List.mem_cons_of_mem _ hg)
    · intro g hg
      simp only [addRecord, if_neg he] at hg
      rcases List.mem_cons.mp hg with rfl | hg
      · exact h (k0, rs) (by simp)
      · exact ih (fun g1 hg1 => h g1 (List.mem_cons_of_mem _ hg1)) g hg

theorem addRecord_mem_inv (gs : List (List Char × List Row)) (k : List Char)
    (r : Row) (x : Row) (h : ∃ g ∈ addRecord gs k r, x ∈ g.2) :
    (∃ g ∈ gs, x ∈ g.2) ∨ x = r := by
  induction gs with
  | nil =>
    obtain ⟨g, hg, hx⟩ := h
    simp only [addRecord, List.mem_singleton] at hg
    subst hg
    simp only [List.mem_singleton] at hx
    exact Or.inr hx
  | cons g0 rest ih =>
    obtain ⟨k0, rs⟩ := g0
    obtain ⟨g, hg, hx⟩ := h
    by_cases he : k0 = k
    · subst he
      simp only [addRecord, if_pos rfl] at hg
      rcases List.mem_cons.mp hg with rfl | hg
      · rcases List.mem_append.mp hx with hx | hx
        · exact Or.inl ⟨(k0, rs), by simp, hx⟩
        · exact Or.inr (List.mem_singleton.mp hx)
      · exact Or.inl ⟨g, List.mem_cons_of_mem _ hg, hx⟩
    · simp only [addRecord, if_neg he] at hg
      rcases List.mem_cons.mp hg with rfl | hg
      · exact Or.inl ⟨(k0, rs), by simp, hx⟩
      · rcases ih ⟨g, hg, hx⟩ with ⟨g1, hg1, hx1⟩ | hx1
        · exact Or.inl ⟨g1, List.mem_cons_of_mem _ hg1, hx1⟩
        · exact Or.inr hx1

theorem addRecord_mem_old (gs : List (List Char × List Row)) (k : List Char)
    (r : Row) (x : Row) (h : ∃ g ∈ gs, x ∈ g.2) :
    ∃ g ∈ addRecord gs k r, x ∈ g.2 := by
  induction gs with
  | nil => simp at h
  | cons g0 rest ih =>
    obtain ⟨k0, rs⟩ := g0
    obtain ⟨g, hg, hx⟩ := h
    by_cases he : k0 = k
    · subst he
      simp only [addRecord, if_pos rfl]
      rcases List.mem_cons.mp hg with rfl | hg
      · exact ⟨(k0, rs ++ [r]), by simp, List.mem_append.mpr (Or.inl hx)⟩
      · exact ⟨g, List.mem_cons_of_mem _ hg, hx⟩
    · simp only [addRecord, if_neg he]
      rcases List.mem_cons.mp hg with rfl | hg
      · exact ⟨(k0, rs), by simp, hx⟩
      · obtain ⟨g1, hg1, hx1⟩ := ih ⟨g, hg, hx⟩
        exact ⟨g1, List.mem_cons_of_mem _ hg1, hx1⟩

theorem addRecord_mem_new (gs : List (List Char × List Row)) (k : List Char) (r : Row) :
    ∃ g ∈ addRecord gs k r, r ∈ g.2 := by
  induction gs with
  | nil => exact ⟨(k, [r]), by simp [addRecord], by simp⟩
  | cons g0 rest ih =>
    obtain ⟨k0, rs⟩ := g0
    by_cases he : k0 = k
    · subst he
      simp only [addRecord, if_pos rfl]
      exact ⟨(k0, rs ++ [r]), by simp, List.mem_append.mpr (Or.inr (by simp))⟩
    · simp only [addRecord, if_neg he]
      obtain ⟨g1, hg1, hx1⟩ := ih
      exact ⟨g1, List.mem_cons_of_mem _ hg1, hx1⟩

theorem foldl_groupStep_rows (Q : List Char → Row → Prop) (entries : List (List Char)) :
    ∀ acc, (∀ g ∈ acc, ∀ x ∈ g.2, Q g.1 x) →
      (∀ l ∈ entries, Q (rowId l) (l, rowSeq l)) →
      ∀ g ∈ entries.foldl groupStep acc, ∀ x ∈ g.2, Q g.1 x := by
  induction entries with
  | nil =>
    intro acc hacc _
    simpa using hacc
  | cons l rest ih =>
    intro acc hacc hent
    rw [List.foldl_cons]
    exact ih _ (addRecord_rows Q acc _ _ hacc (hent l (by simp)))
      (fun x hx => hent x (by simp [hx]))

theorem pureGroups_rows (entries : List (List Char)) :
    ∀ g ∈ pureGroups entries, ∀ x ∈ g.2,
      rowId x.1 = g.1 ∧ x.2 = rowSeq x.1 ∧ x.1 ∈ entries := by
  apply foldl_groupStep_rows
    (fun k x => rowId x.1 = k ∧ x.2 = rowSeq x.1 ∧ x.1 ∈ entries)
  · simp
  · exact fun l hl => ⟨rfl, rfl, hl⟩

theorem foldl_groupStep_nodup (entries : List (List Char)) :
    ∀ acc, ((acc.map Prod.fst).Nodup) →
      ((entries.foldl groupStep acc).map Prod.fst).Nodup := by
  induction entries with
  | nil =>
    intro acc h
    simpa using h
  | cons l rest ih =>
    intro acc h
    rw [List.foldl_cons]
    exact ih _ (addRecord_keys_nodup _ _ _ h)

theorem pureGroups_keys_nodup (entries : List (List Char)) :
    ((pureGroups entries).map Prod.fst).Nodup :=
  foldl_groupStep_nodup entries [] (by simp)

theorem foldl_groupStep_nonempty (entries : List (List Char)) :
    ∀ acc, (∀ g ∈ acc, g.2 ≠ []) →
      ∀ g ∈ entries.foldl groupStep acc, g.2 ≠ [] := by
  induction entries with
  | nil =>
    intro acc h
    simpa using h
  | cons l rest ih =>
    intro acc h
    rw [List.foldl_cons]
    exact ih _ (addRecord_nonempty _ _ _ h)

theorem pureGroups_nonempty (entries : List (List Char)) :
    ∀ g ∈ pureGroups entries, g.2 ≠ [] :=
  foldl_groupStep_nonempty entries [] (by simp)

theorem foldl_groupStep_mem (entries : List (List Char)) :
    ∀ acc (x : Row), (∃ g ∈ entries.foldl groupStep acc, x ∈ g.2)
      ↔ ((∃ g ∈ acc, x ∈ g.2) ∨ ∃ l ∈ entries, x = (l, rowSeq l)) := by
  induction entries with
  | nil => simp
  | cons l rest ih =>
    intro acc x
    rw [List.foldl_cons, ih]
    constructor
    · rintro (hacc | hrest)
      · rcases addRecord_mem_inv _ _ _ _ hacc with h | h
        · exact Or.inl h
        · exact Or.inr ⟨l, by simp, h⟩
      · obtain ⟨l1, hl1, rfl⟩ := hrest
        exact Or.inr ⟨l1, by simp [hl1], rfl⟩
    · rintro (hacc | ⟨l1, hl1, rfl⟩)
      · exact Or.inl (addRecord_mem_old _ _ _ _ hacc)
      · rcases List.mem_cons.mp hl1 with rfl | hl1
        · exact Or.inl (addRecord_mem_new acc _ _)
        · exact Or.inr ⟨l1, hl1, rfl⟩

theorem pureGroups_mem (entries : List (List Char)) (x : Row) :
    (∃ g ∈ pureGroups entries, x ∈ g.2) ↔ ∃ l ∈ entries, x = (l, rowSeq l) := by
  rw [pureGroups, foldl_groupStep_mem]
  simp

theorem rows_map_self (rs : List Row) (h : ∀ x ∈ rs, x.2 = rowSeq x.1) :
    rs.map (fun x => (x.1, rowSeq x.1)) = rs := by
  induction rs with
  | nil => rfl
  | cons x rest ih =>
    obtain ⟨a, b⟩ := x
    have hx : b = rowSeq a := h (a, b) (by simp)
    simp only [List.map_cons, ih (fun y hy => h y (by simp [hy]))]
    rw [← hx]

theorem foldl_groupStep_block (k : List Char) (block : List (List Char))
    (hb : ∀ l ∈ block, rowId l = k) :
    ∀ acc rs, k ∉ acc.map Prod.fst →
      block.foldl groupStep (acc ++ [(k, rs)])
        = acc ++ [(k, rs ++ block.map (fun l => (l, rowSeq l)))] := by
  induction block with
  | nil =>
    intro acc rs _
    simp
  | cons l rest ih =>
    intro acc rs hk
    rw [List.foldl_cons]
    have h1 : groupStep (acc ++ [(k, rs)]) l = acc ++ [(k, rs ++ [(l, rowSeq l)])] := by
      unfold groupStep
      rw [hb l (by simp), addRecord_last _ _ _ _ hk]
    rw [h1, ih (fun x hx => hb x (by simp [hx])) acc _ hk]
    simp

theorem pureGroups_blocks_aux (gl : List (List Char × List Row)) :
    ∀ acc, (gl.map Prod.fst).Nodup →
      (∀ g ∈ gl, g.1 ∉ acc.map Prod.fst) →
      (∀ g ∈ gl, g.2 ≠ []) →
      (∀ g ∈ gl, ∀ x ∈ g.2, rowId x.1 = g.1 ∧ x.2 = rowSeq x.1) →
      (gl.flatMap (fun g => g.2.map Prod.fst)).foldl groupStep acc = acc ++ gl := by
  induction gl with
  | nil =>
    intro acc _ _ _ _
    simp
  | cons g gl ih =>
    obtain ⟨k, rs⟩ := g
    intro acc hnd hfresh hne hrows
    rw [List.flatMap_cons, List.foldl_append]
    cases rs with
    | nil => exact absurd rfl (hne (k, []) (by simp))
    | cons x0 xs =>
      have hrows0 : ∀ x ∈ x0 :: xs, rowId x.1 = k ∧ x.2 = rowSeq x.1 :=
        fun x hx => hrows (k, x0 :: xs) (by simp) x hx
      have hstep1 : groupStep acc x0.1 = acc ++ [(k, [x0])] := by
        unfold groupStep
        rw [(hrows0 x0 (by simp)).1, addRecord_fresh _ _ _ (hfresh (k, x0 :: xs) (by simp))]
        have hx0 : (x0.1, rowSeq x0.1) = x0 := by
          obtain ⟨a, b⟩ := x0
          rw [← (hrows0 (a, b) (by simp)).2]
        rw [hx0]
      have hblock : ∀ l ∈ xs.map Prod.fst, rowId l = k := by
        intro l hl
        obtain ⟨x, hx, rfl⟩ := List.mem_map.mp hl
        exact (hrows0 x (by simp [hx])).1
      have hfold : (x0.1 :: xs.map Prod.fst).foldl groupStep acc = acc ++ [(k, x0 :: xs)] := by
        rw [List.foldl_cons, hstep1,
          foldl_groupStep_block k _ hblock acc [x0] (hfresh (k, x0 :: xs) (by simp))]
        rw [List.map_map]
        have : xs.map ((fun l => (l, rowSeq l)) ∘ Prod.fst) = xs.map (fun x => (x.1, rowSeq x.1)) := rfl
        rw [this, rows_map_self xs (fun y hy => (hrows0 y (by simp [hy])).2)]
        rfl
      rw [show ((k, x0 :: xs).2.map Prod.fst : List (List Char)) = x0.1 :: xs.map Prod.fst from rfl]
      rw [hfold]
      have hk_not : k ∉ gl.map Prod.fst := by
        have := hnd
        simp only [List.map_cons, List.nodup_cons] at this
        exact this.1
      rw [ih (acc ++ [(k, x0 :: xs)])
        (by simpa using hnd.of_cons)
        (by
          intro g1 hg1
          simp only [List.map_append, List.mem_append]
          rintro (hmem | hmem)
          · exact hfresh g1 (List.mem_cons_of_mem _ hg1) hmem
          · simp only [List.map_cons, List.map_nil, List.mem_singleton] at hmem
            exact hk_not (hmem ▸ List.mem_map_of_mem Prod.fst hg1))
        (fun g1 hg1 => hne g1 (List.mem_cons_of_mem _ hg1))
        (fun g1 hg1 => hrows g1 (List.mem_cons_of_mem _ hg1))]
      simp

theorem pureGroups_blocks (gl : List (List Char × List Row))
    (hnd : (gl.map Prod.fst).Nodup)
    (hne : ∀ g ∈ gl, g.2 ≠ [])
    (hrows : ∀ g ∈ gl, ∀ x ∈ g.2, rowId x.1 = g.1 ∧ x.2 = rowSeq x.1) :
    pureGroups (gl.flatMap (fun g => g.2.map Prod.fst)) = gl := by
  have h := pureGroups_blocks_aux gl [] hnd (by simp) hne hrows
  rw [pureGroups, h]
  simp

/-! ### Theorems: the group decision -/

theorem passes_stringency_valid (level : String) (hv : validLevel level) (seq : List Char) :
    passes_stringency seq level = some (disqB level seq) := by
  rcases hv with rfl | rfl <;> simp [passes_stringency, disqB]

theorem passes_stringency_invalid (level : String) (hv : ¬ validLevel level)
    (seq : List Char) : passes_stringency seq level = none := by
  have h1 : ¬ level = "high" := fun h => hv (Or.inl h)
  have h2 : ¬ level = "maximum" := fun h => hv (Or.inr h)
  simp [passes_stringency, h1, h2]

theorem groupDecide_eq_acceptB (level : String) (hv : validLevel level)
    (rs : List Row) : ∀ hasOn : Bool,
    groupDecide level rs hasOn = .ok (acceptB level rs hasOn) := by
  induction rs with
  | nil => intro hasOn; rfl
  | cons r rest ih =>
    intro hasOn
    by_cases hm : count_mismatches r.2 = 0
    · simp only [groupDecide, acceptB, if_pos hm]
      exact ih true
    · simp only [groupDecide, acceptB, if_neg hm, passes_stringency_valid level hv r.2]
      cases hd : disqB level r.2
      · show groupDecide level rest hasOn = .ok (acceptB level rest hasOn)
        exact ih hasOn
      · rfl

theorem acceptB_iff (level : String) (rs : List Row) :
    ∀ hasOn : Bool, (acceptB level rs hasOn = true ↔
      ((hasOn = true ∨ ∃ r ∈ rs, count_mismatches r.2 = 0)
        ∧ ∀ r ∈ rs, count_mismatches r.2 ≠ 0 → disqB level r.2 = false)) := by
  induction rs with
  | nil => intro hasOn; simp [acceptB]
  | cons r rest ih =>
    intro hasOn
    simp only [acceptB]
    by_cases hm : count_mismatches r.2 = 0
    · rw [if_pos hm, ih]
      constructor
      · rintro ⟨h1, h2⟩
        refine ⟨Or.inr ⟨r, by simp, hm⟩, ?_⟩
        intro x hx hxm
        rcases List.mem_cons.mp hx with rfl | hx
        · exact absurd hm hxm
        · exact h2 x hx hxm
      · rintro ⟨h1, h2⟩
        exact ⟨Or.inl rfl, fun x hx hxm => h2 x (List.mem_cons_of_mem _ hx) hxm⟩
    · rw [if_neg hm]
      by_cases hd : disqB level r.2 = true
      · rw [if_pos hd]
        constructor
        · intro hcon
          exact absurd hcon (by simp)
        · rintro ⟨h1, h2⟩
          have hfd := h2 r (by simp) hm
          rw [hd] at hfd
          cases hfd
      · rw [if_neg hd, ih]
        simp only [Bool.not_eq_true] at hd
        constructor
        · rintro ⟨h1, h2⟩
          constructor
          · rcases h1 with h1 | ⟨x, hx, hxm⟩
            · exact Or.inl h1
            · exact Or.inr ⟨x, List.mem_cons_of_mem _ hx, hxm⟩
          · intro x hx hxm
            rcases List.mem_cons.mp hx with rfl | hx
            · exact hd
            · exact h2 x hx hxm
        · rintro ⟨h1, h2⟩
          constructor
          · rcases h1 with h1 | ⟨x, hx, hxm⟩
            · exact Or.inl h1
            · rcases List.mem_cons.mp hx with rfl | hx
              · exact absurd hxm (by simp [hm])
              · exact Or.inr ⟨x, hx, hxm⟩
          · exact fun x hx hxm => h2 x (List.mem_cons_of_mem _ hx) hxm

theorem acceptB_iff_groupAcceptP (level : String) (hv : validLevel level) (rs : List Row) :
    acceptB level rs false = true ↔ groupAcceptP level rs := by
  rw [acceptB_iff]
  unfold groupAcceptP
  constructor
  · rintro ⟨h1, h2⟩
    refine ⟨?_, ?_⟩
    · rcases h1 with h1 | h1
      · cases h1
      · exact h1
    · intro r hr hm hps
      have hfd := h2 r hr hm
      rw [passes_stringency_valid level hv r.2] at hps
      simp only [Option.some.injEq] at hps
      rw [hps] at hfd
      cases hfd
  · rintro ⟨h1, h2⟩
    refine ⟨Or.inr h1, ?_⟩
    intro r hr hm
    have hnd := h2 r hr hm
    cases hd : disqB level r.2
    · rfl
    · exfalso
      apply hnd
      rw [passes_stringency_valid level hv r.2, hd]

theorem groupDecide_invalid_err (level : String) (hv : ¬ validLevel level)
    (rs : List Row) (h : ∃ r ∈ rs, count_mismatches r.2 ≠ 0) :
    ∀ hasOn, groupDecide level rs hasOn = .error (.valueError level) := by
  induction rs with
  | nil =>
    obtain ⟨r, hr, _⟩ := h
    simp at hr
  | cons r rest ih =>
    intro hasOn
    by_cases hm : count_mismatches r.2 = 0
    · obtain ⟨x, hx, hxm⟩ := h
      rcases List.mem_cons.mp hx with rfl | hx
      · exact absurd hm hxm
      simp only [groupDecide, if_pos hm]
      exact ih ⟨x, hx, hxm⟩ true
    · simp only [groupDecide, if_neg hm, passes_stringency_invalid level hv]

theorem groupDecide_invalid_ok (level : String)
    (rs : List Row) (h : ∀ r ∈ rs, count_mismatches r.2 = 0) :
    ∀ hasOn, ∃ b, groupDecide level rs hasOn = .ok b := by
  induction rs with
  | nil => exact fun hasOn => ⟨hasOn, rfl⟩
  | cons r rest ih =>
    intro hasOn
    have hm := h r (by simp)
    simp only [groupDecide, if_pos hm]
    exact ih (fun x hx => h x (by simp [hx])) true

theorem processGroups_ok (level : String) (hv : validLevel level)
    (gl : List (List Char × List Row)) :
    processGroups level gl =
      .ok ((gl.filter (fun g => acceptB level g.2 false)).flatMap
            (fun g => g.2.map annotateRow),
           (gl.filter (fun g => acceptB level g.2 false)).map Prod.fst) := by
  induction gl with
  | nil => rfl
  | cons g gl ih =>
    obtain ⟨k, rs⟩ := g
    simp only [processGroups, groupDecide_eq_acceptB level hv, ih]
    cases ha : acceptB level rs false
    · simp [List.filter_cons, ha]
    · simp [List.filter_cons, ha]

theorem processGroups_invalid_err (level : String) (hv : ¬ validLevel level)
    (gl : List (List Char × List Row))
    (h : ∃ g ∈ gl, ∃ r ∈ g.2, count_mismatches r.2 ≠ 0) :
    processGroups level gl = .error (.valueError level) := by
  induction gl with
  | nil =>
    obtain ⟨g, hg, _⟩ := h
    simp at hg
  | cons g gl ih =>
    obtain ⟨k, rs⟩ := g
    by_cases hrs : ∃ r ∈ rs, count_mismatches r.2 ≠ 0
    · simp only [processGroups, groupDecide_invalid_err level hv rs hrs false]
    · push_neg at hrs
      obtain ⟨b, hb⟩ := groupDecide_invalid_ok level rs hrs false
      have hrest : ∃ g ∈ gl, ∃ r ∈ g.2, count_mismatches r.2 ≠ 0 := by
        obtain ⟨g1, hg1, r1, hr1, hm1⟩ := h
        rcases List.mem_cons.mp hg1 with rfl | hg1
        · exact absurd (hrs r1 hr1) hm1
        · exact ⟨g1, hg1, r1, hr1, hm1⟩
      simp only [processGroups, hb]
      cases b
      · exact ih hrest
      · rw [ih hrest]

theorem processGroups_invalid_ok (level : String)
    (gl : List (List Char × List Row))
    (h : ∀ g ∈ gl, ∀ r ∈ g.2, count_mismatches r.2 = 0) :
    ∃ res, processGroups level gl = .ok res := by
  induction gl with
  | nil => exact ⟨([], []), rfl⟩
  | cons g gl ih =>
    obtain ⟨k, rs⟩ := g
    obtain ⟨b, hb⟩ := groupDecide_invalid_ok level rs (h (k, rs) (by simp)) false
    obtain ⟨res, hres⟩ := ih (fun g1 hg1 => h g1 (List.mem_cons_of_mem _ hg1))
    obtain ⟨ls, ids⟩ := res
    cases b
    · refine ⟨(ls, ids), ?_⟩
      simp only [processGroups, hb]
      exact hres
    · refine ⟨(rs.map annotateRow ++ ls, k :: ids), ?_⟩
      simp only [processGroups, hb, hres]

theorem filter_offtargets_ok (input : List (List Char)) (level : String)
    (hv : validLevel level) (hwf : ∀ l ∈ entriesOf input, rowOk l = true) :
    filter_offtargets input level =
      .ok ⟨headersOf input
            ++ (acceptedGroupsOf level input).flatMap (fun g => g.2.map annotateRow),
          (acceptedGroupsOf level input).map Prod.fst⟩ := by
  unfold filter_offtargets
  simp only [buildGroups_ok _ hwf, processGroups_ok level hv]
  rfl

/-! ### Theorems: the classifier claims -/

/-- C2: for every well-formed classifier input and recognized level, a guide
identifier is accepted iff its group has at least one row with zero lowercase
characters and none of its rows with a nonzero lowercase count satisfies the
disqualification predicate; every row of an accepted group, in particular
every zero-mismatch row, is retained in the output (zero-mismatch rows are
never evaluated against the stringency test: the acceptance condition
constrains only the nonzero rows). -/
theorem group_acceptance (input : List (List Char)) (level : String)
    (hv : validLevel level) (hwf : ∀ l ∈ entriesOf input, rowOk l = true) :
    ∃ out, filter_offtargets input level = .ok out
      ∧ (∀ k, k ∈ out.acceptedIds ↔
          ∃ rs, (k, rs) ∈ pureGroups (entriesOf input) ∧ groupAcceptP level rs)
      ∧ (∀ g ∈ pureGroups (entriesOf input), groupAcceptP level g.2 →
          ∀ r ∈ g.2, annotateRow r ∈ out.outputLines) := by
  refine ⟨_, filter_offtargets_ok input level hv hwf, ?_, ?_⟩
  · intro k
    simp only [List.mem_map, acceptedGroupsOf, List.mem_filter]
    constructor
    · rintro ⟨⟨k1, rs⟩, ⟨hg, hacc⟩, rfl⟩
      exact ⟨rs, hg, (acceptB_iff_groupAcceptP level hv rs).mp hacc⟩
    · rintro ⟨rs, hg, hacc⟩
      exact ⟨(k, rs), ⟨hg, (acceptB_iff_groupAcceptP level hv rs).mpr hacc⟩, rfl⟩
  · intro g hg hacc r hr
    apply List.mem_append.mpr
    right
    rw [List.mem_flatMap]
    exact ⟨g, List.mem_filter.mpr ⟨hg, (acceptB_iff_groupAcceptP level hv g.2).mpr hacc⟩,
      List.mem_map_of_mem _ hr⟩

/-- Witness for `group_acceptance`: one well-formed zero-mismatch row at
level high. -/
theorem group_acceptance_wit :
    ∃ out, filter_offtargets [['g', '1', '\t', 'x', '\t', 'y', '\t', 'A']] "high" = .ok out
      ∧ (∀ k, k ∈ out.acceptedIds ↔
          ∃ rs, (k, rs) ∈ pureGroups (entriesOf [['g', '1', '\t', 'x', '\t', 'y', '\t', 'A']])
            ∧ groupAcceptP "high" rs)
      ∧ (∀ g ∈ pureGroups (entriesOf [['g', '1', '\t', 'x', '\t', 'y', '\t', 'A']]),
          groupAcceptP "high" g.2 →
          ∀ r ∈ g.2, annotateRow r ∈ out.outputLines) :=
  group_acceptance [['g', '1', '\t', 'x', '\t', 'y', '\t', 'A']] "high"
    (Or.inl rfl) (by decide)

/-- C3: an input containing a data row with fewer than four tab fields makes
the classifier fail with the index error raised while grouping, for every
stringency level; in the `Except` model the error result carries no output,
so no output file is written. -/
theorem malformed_row_fails (input : List (List Char)) (level : String)
    (h : ∃ l ∈ entriesOf input, rowOk l = false) :
    filter_offtargets input level = .error .indexError := by
  unfold filter_offtargets
  rw [buildGroups_err _ h]

/-- Witness for `malformed_row_fails`: a three-field row. -/
theorem malformed_row_fails_wit :
    filter_offtargets [['a', '\t', 'b', '\t', 'c']] "high" = .error .indexError :=
  malformed_row_fails [['a', '\t', 'b', '\t', 'c']] "high" (by decide)

/-- C4 counterexample: at the unrecognized level low and an empty input the
classifier succeeds and writes (empty) output instead of failing with
InvalidParameter, refuting the claim that it fails regardless of the
contents of the input. -/
theorem invalid_level_counterexample :
    filter_offtargets [] "low" = .ok ⟨[], []⟩ := rfl

/-- C4 (amended): for every stringency level other than high and maximum,
on well-formed input the classifier raises the invalid-parameter ValueError
iff the input contains a data row with a nonzero lowercase count — the
level is only checked inside the per-row classification, after the input
has been read and grouped — and when every data row has zero mismatches the
run succeeds and output is written. -/
theorem invalid_level_behavior (input : List (List Char)) (level : String)
    (hv : ¬ validLevel level) (hwf : ∀ l ∈ entriesOf input, rowOk l = true) :
    (filter_offtargets input level = .error (.valueError level) ↔
      ∃ l ∈ entriesOf input, count_mismatches (rowSeq l) ≠ 0)
    ∧ ((∀ l ∈ entriesOf input, count_mismatches (rowSeq l) = 0) →
        ∃ out, filter_offtargets input level = .ok out) := by
  have hrows_iff :
      (∃ g ∈ pureGroups (entriesOf input), ∃ r ∈ g.2, count_mismatches r.2 ≠ 0)
      ↔ ∃ l ∈ entriesOf input, count_mismatches (rowSeq l) ≠ 0 := by
    constructor
    · rintro ⟨g, hg, r, hr, hm⟩
      have hprops := pureGroups_rows (entriesOf input) g hg r hr
      refine ⟨r.1, hprops.2.2, ?_⟩
      rw [← hprops.2.1]
      exact hm
    · rintro ⟨l, hl, hm⟩
      obtain ⟨g, hg, hr⟩ := (pureGroups_mem (entriesOf input) (l, rowSeq l)).mpr ⟨l, hl, rfl⟩
      exact ⟨g, hg, (l, rowSeq l), hr, hm⟩
  have hall_of : (∀ l ∈ entriesOf input, count_mismatches (rowSeq l) = 0) →
      ∀ g ∈ pureGroups (entriesOf input), ∀ r ∈ g.2, count_mismatches r.2 = 0 := by
    intro hno g hg r hr
    have hprops := pureGroups_rows (entriesOf input) g hg r hr
    rw [hprops.2.1]
    exact hno r.1 hprops.2.2
  constructor
  · constructor
    · intro herr
      by_contra hno
      push_neg at hno
      obtain ⟨res, hres⟩ := processGroups_invalid_ok level _ (hall_of hno)
      obtain ⟨ls, ids⟩ := res
      unfold filter_offtargets at herr
      simp only [buildGroups_ok _ hwf, hres] at herr
      cases herr
    · intro hex
      unfold filter_offtargets
      simp only [buildGroups_ok _ hwf,
        processGroups_invalid_err level hv _ (hrows_iff.mpr hex)]
  · intro hzero
    obtain ⟨res, hres⟩ := processGroups_invalid_ok level _ (hall_of hzero)
    obtain ⟨ls, ids⟩ := res
    refine ⟨⟨headersOf input ++ ls, ids⟩, ?_⟩
    unfold filter_offtargets
    simp only [buildGroups_ok _ hwf, hres]

/-- Witness for `invalid_level_behavior`: level low, one row with one
lowercase character. -/
theorem invalid_level_behavior_wit :
    (filter_offtargets [['g', '\t', 'x', '\t', 'y', '\t', 'a']] "low"
        = .error (.valueError "low") ↔
      ∃ l ∈ entriesOf [['g', '\t', 'x', '\t', 'y', '\t', 'a']],
        count_mismatches (rowSeq l) ≠ 0)
    ∧ ((∀ l ∈ entriesOf [['g', '\t', 'x', '\t', 'y', '\t', 'a']],
        count_mismatches (rowSeq l) = 0) →
        ∃ out, filter_offtargets [['g', '\t', 'x', '\t', 'y', '\t', 'a']] "low" = .ok out) :=
  invalid_level_behavior [['g', '\t', 'x', '\t', 'y', '\t', 'a']] "low"
    (by unfold validLevel; decide) (by decide)

/-- C6 counterexample: a header line carrying a trailing space is emitted
stripped, not verbatim, refuting the claim that header lines pass through
verbatim. -/
theorem header_not_verbatim :
    filter_offtargets [['#', 'h', ' ']] "high" = .ok ⟨[['#', 'h']], []⟩
    ∧ [['#', 'h']] ≠ [['#', 'h', ' ']] := ⟨rfl, by decide⟩

/-- C6 (amended): for every well-formed input and recognized level, the
output consists of the header/comment lines — stripped of surrounding
whitespace, blank lines dropped, otherwise in original order — before any
data rows, followed by the rows of each accepted group in original order
(groups in first-occurrence order), where each stripped row with a
zero-mismatch aligned sequence carries the appended on-target marker and
every other emitted row is the stripped input row unchanged. -/
theorem output_structure (input : List (List Char)) (level : String)
    (hv : validLevel level) (hwf : ∀ l ∈ entriesOf input, rowOk l = true) :
    ∃ out, filter_offtargets input level = .ok out
      ∧ out.outputLines
          = headersOf input
            ++ (acceptedGroupsOf level input).flatMap (fun g => g.2.map annotateRow)
      ∧ (∀ r : Row, count_mismatches r.2 = 0 → annotateRow r = r.1 ++ onTargetMark)
      ∧ (∀ r : Row, count_mismatches r.2 ≠ 0 → annotateRow r = r.1) :=
  ⟨_, filter_offtargets_ok input level hv hwf, rfl,
    fun r hr => by simp [annotateRow, hr],
    fun r hr => by simp [annotateRow, hr]⟩

/-- Witness for `output_structure`: a header line plus an accepted
zero-mismatch row at level high. -/
theorem output_structure_wit :
    ∃ out, filter_offtargets [['#', 'h'], ['g', '\t', 'x', '\t', 'y', '\t', 'A']] "high"
          = .ok out
      ∧ out.outputLines
          = headersOf [['#', 'h'], ['g', '\t', 'x', '\t', 'y', '\t', 'A']]
            ++ (acceptedGroupsOf "high" [['#', 'h'], ['g', '\t', 'x', '\t', 'y', '\t', 'A']]).flatMap
                (fun g => g.2.map annotateRow)
      ∧ (∀ r : Row, count_mismatches r.2 = 0 → annotateRow r = r.1 ++ onTargetMark)
      ∧ (∀ r : Row, count_mismatches r.2 ≠ 0 → annotateRow r = r.1) :=
  output_structure [['#', 'h'], ['g', '\t', 'x', '\t', 'y', '\t', 'A']] "high"
    (Or.inl rfl) (by decide)

/-! ### Theorems: idempotence of the classifier -/

theorem mem_normLines (input : List (List Char)) (l : List Char)
    (h : l ∈ normLines input) : noEdgeSpace l ∧ l ≠ [] := by
  unfold normLines at h
  obtain ⟨hmem, hne⟩ := List.mem_filter.mp h
  obtain ⟨raw, _, rfl⟩ := List.mem_map.mp hmem
  refine ⟨noEdgeSpace_pyStrip raw, ?_⟩
  simpa using hne

theorem normLines_eq_self (x : List (List Char))
    (h : ∀ l ∈ x, pyStrip l = l ∧ l ≠ []) : normLines x = x := by
  unfold normLines
  have hmap : x.map pyStrip = x.map id := List.map_congr_left (fun l hl => (h l hl).1)
  rw [hmap, List.map_id]
  apply List.filter_eq_self.mpr
  intro l hl
  simpa using (h l hl).2

theorem flatMap_map_groups (gl : List (List Char × List Row)) (f : Row → Row) :
    ((gl.map (fun g => (g.1, g.2.map f))).flatMap (fun g => g.2.map Prod.fst))
      = gl.flatMap (fun g => (g.2.map f).map Prod.fst) := by
  induction gl with
  | nil => rfl
  | cons g gl ih => simp only [List.map_cons, List.flatMap_cons, ih]

theorem acceptB_map_annotate (level : String) (rs : List Row)
    (h : ∀ x ∈ rs, x.2 = rowSeq x.1 ∧ rowOk x.1 = true) :
    ∀ hasOn, acceptB level
        (rs.map (fun x => (annotateRow x, rowSeq (annotateRow x)))) hasOn
      = acceptB level rs hasOn := by
  induction rs with
  | nil => intro hasOn; rfl
  | cons x rest ih =>
    intro hasOn
    obtain ⟨hseq, hok⟩ := h x (by simp)
    have ihr := ih (fun y hy => h y (by simp [hy]))
    simp only [List.map_cons, acceptB]
    by_cases hm : count_mismatches x.2 = 0
    · have hcm : count_mismatches (rowSeq (annotateRow x)) = 0 := by
        have hann : annotateRow x = x.1 ++ onTargetMark := by simp [annotateRow, hm]
        rw [hann]
        rcases rowSeq_append_mark x.1 hok with hcase | hcase
        · rw [hcase, ← hseq]
          exact hm
        · rw [hcase, count_mismatches_append, ← hseq, hm, count_mismatches_mark]
      rw [if_pos hm, if_pos hcm]
      exact ihr true
    · have hann : annotateRow x = x.1 := by simp [annotateRow, hm]
      have hsnd : rowSeq (annotateRow x) = x.2 := by rw [hann, ← hseq]
      have hcm : ¬ count_mismatches (rowSeq (annotateRow x)) = 0 := by
        rw [hsnd]
        exact hm
      rw [if_neg hm, if_neg hcm]
      simp only [hsnd]
      by_cases hd : disqB level x.2 = true
      · rw [if_pos hd, if_pos hd]
      · rw [if_neg hd, if_neg hd]
        exact ihr hasOn

/-- C7: re-running the classifier on its own prior output under the same
recognized stringency level yields the identical list, hence the identical
set, of accepted guide identifiers. -/
theorem classifier_idempotent (input : List (List Char)) (level : String)
    (hv : validLevel level)
    (hwf : ∀ l ∈ entriesOf input, rowOk l = true)
    (out1 : FilterResult)
    (h1 : filter_offtargets input level = .ok out1) :
    ∃ out2, filter_offtargets out1.outputLines level = .ok out2
      ∧ out2.acceptedIds = out1.acceptedIds := by
  have hout1 := filter_offtargets_ok input level hv hwf
  rw [h1] at hout1
  have hout1e : out1
      = ⟨headersOf input
          ++ (acceptedGroupsOf level input).flatMap (fun g => g.2.map annotateRow),
        (acceptedGroupsOf level input).map Prod.fst⟩ := Except.ok.inj hout1
  subst hout1e
  show ∃ out2,
      filter_offtargets
        (headersOf input
          ++ (acceptedGroupsOf level input).flatMap (fun g => g.2.map annotateRow)) level
        = .ok out2
      ∧ out2.acceptedIds = (acceptedGroupsOf level input).map Prod.fst
  have hAGsub : ∀ g ∈ acceptedGroupsOf level input, g ∈ pureGroups (entriesOf input) :=
    fun g hg => (List.mem_filter.mp hg).1
  have hAGacc : ∀ g ∈ acceptedGroupsOf level input, acceptB level g.2 false = true :=
    fun g hg => (List.mem_filter.mp hg).2
  have hrowsP : ∀ g ∈ acceptedGroupsOf level input, ∀ x ∈ g.2,
      rowId x.1 = g.1 ∧ x.2 = rowSeq x.1 ∧ x.1 ∈ entriesOf input :=
    fun g hg => pureGroups_rows (entriesOf input) g (hAGsub g hg)
  have hAGne : ∀ g ∈ acceptedGroupsOf level input, g.2 ≠ [] :=
    fun g hg => pureGroups_nonempty (entriesOf input) g (hAGsub g hg)
  have hAGnd : ((acceptedGroupsOf level input).map Prod.fst).Nodup :=
    List.Nodup.sublist (List.Sublist.map Prod.fst (List.filter_sublist _))
      (pureGroups_keys_nodup (entriesOf input))
  have hent : ∀ l ∈ entriesOf input, noEdgeSpace l ∧ l ≠ [] ∧ startsHash l = false := by
    intro l hl
    obtain ⟨hmem, hns⟩ := List.mem_filter.mp hl
    obtain ⟨hne1, hne2⟩ := mem_normLines input l hmem
    refine ⟨hne1, hne2, ?_⟩
    simpa using hns
  have hhead : ∀ l ∈ headersOf input, noEdgeSpace l ∧ l ≠ [] ∧ startsHash l = true := by
    intro l hl
    obtain ⟨hmem, hns⟩ := List.mem_filter.mp hl
    obtain ⟨hne1, hne2⟩ := mem_normLines input l hmem
    exact ⟨hne1, hne2, hns⟩
  have hB : ∀ y ∈ (acceptedGroupsOf level input).flatMap (fun g => g.2.map annotateRow),
      noEdgeSpace y ∧ y ≠ [] ∧ startsHash y = false ∧ rowOk y = true := by
    intro y hy
    obtain ⟨g, hg, hy2⟩ := List.mem_flatMap.mp hy
    obtain ⟨x, hx, rfl⟩ := List.mem_map.mp hy2
    obtain ⟨hid, hseq, hmem⟩ := hrowsP g hg x hx
    obtain ⟨hxe, hxne, hxh⟩ := hent x.1 hmem
    have hxok := hwf x.1 hmem
    by_cases hm : count_mismatches x.2 = 0
    · have hann : annotateRow x = x.1 ++ onTargetMark := by simp [annotateRow, hm]
      rw [hann]
      refine ⟨noEdgeSpace_append_mark x.1 hxe hxne, by simp [onTargetMark], ?_,
        rowOk_append_mark x.1 hxok⟩
      rw [startsHash_append x.1 onTargetMark hxne]
      exact hxh
    · have hann : annotateRow x = x.1 := by simp [annotateRow, hm]
      rw [hann]
      exact ⟨hxe, hxne, hxh, hxok⟩
  have hall : ∀ l ∈ headersOf input
        ++ (acceptedGroupsOf level input).flatMap (fun g => g.2.map annotateRow),
      pyStrip l = l ∧ l ≠ [] := by
    intro l hl
    rcases List.mem_append.mp hl with hl | hl
    · obtain ⟨he, hne, _⟩ := hhead l hl
      exact ⟨pyStrip_of_noEdge l he, hne⟩
    · obtain ⟨he, hne, _, _⟩ := hB l hl
      exact ⟨pyStrip_of_noEdge l he, hne⟩
  have hnorm2 : normLines (headersOf input
        ++ (acceptedGroupsOf level input).flatMap (fun g => g.2.map annotateRow))
      = headersOf input
        ++ (acceptedGroupsOf level input).flatMap (fun g => g.2.map annotateRow) :=
    normLines_eq_self _ hall
  have hhead2 : headersOf (headersOf input
        ++ (acceptedGroupsOf level input).flatMap (fun g => g.2.map annotateRow))
      = headersOf input := by
    show (normLines (headersOf input
        ++ (acceptedGroupsOf level input).flatMap (fun g => g.2.map annotateRow))).filter
          startsHash
      = headersOf input
    rw [hnorm2, List.filter_append,
      List.filter_eq_self.mpr (fun l hl => (hhead l hl).2.2),
      List.filter_eq_nil_iff.mpr (fun l hl => by simp [(hB l hl).2.2.1])]
    simp
  have hent2 : entriesOf (headersOf input
        ++ (acceptedGroupsOf level input).flatMap (fun g => g.2.map annotateRow))
      = (acceptedGroupsOf level input).flatMap (fun g => g.2.map annotateRow) := by
    show (normLines (headersOf input
        ++ (acceptedGroupsOf level input).flatMap (fun g => g.2.map annotateRow))).filter
          (fun l => !startsHash l)
      = (acceptedGroupsOf level input).flatMap (fun g => g.2.map annotateRow)
    rw [hnorm2, List.filter_append,
      List.filter_eq_nil_iff.mpr (fun l hl => by simp [(hhead l hl).2.2]),
      List.filter_eq_self.mpr (fun l hl => by simp [(hB l hl).2.2.1])]
    simp
  have hwf2 : ∀ l ∈ entriesOf (headersOf input
        ++ (acceptedGroupsOf level input).flatMap (fun g => g.2.map annotateRow)),
      rowOk l = true := by
    rw [hent2]
    exact fun l hl => (hB l hl).2.2.2
  have hBalt :
      ((acceptedGroupsOf level input).map
          (fun g => (g.1, g.2.map (fun x => (annotateRow x, rowSeq (annotateRow x)))))).flatMap
        (fun g => g.2.map Prod.fst)
      = (acceptedGroupsOf level input).flatMap (fun g => g.2.map annotateRow) := by
    have hfun : (fun g : List Char × List Row =>
        (g.2.map (fun x => (annotateRow x, rowSeq (annotateRow x)))).map Prod.fst)
        = fun g : List Char × List Row => g.2.map annotateRow := by
      funext g
      rw [List.map_map]
      rfl
    rw [flatMap_map_groups, hfun]
  have hgroups2 :
      pureGroups ((acceptedGroupsOf level input).flatMap (fun g => g.2.map annotateRow))
      = (acceptedGroupsOf level input).map
          (fun g => (g.1, g.2.map (fun x => (annotateRow x, rowSeq (annotateRow x))))) := by
    rw [← hBalt]
    apply pureGroups_blocks
    · rw [List.map_map]
      simpa [Function.comp] using hAGnd
    · intro g hg
      obtain ⟨g0, hg0, rfl⟩ := List.mem_map.mp hg
      simp only [ne_eq, List.map_eq_nil_iff]
      exact hAGne g0 hg0
    · intro g hg x hx
      obtain ⟨g0, hg0, rfl⟩ := List.mem_map.mp hg
      obtain ⟨x0, hx0, rfl⟩ := List.mem_map.mp hx
      obtain ⟨hid0, hseq0, hmem0⟩ := hrowsP g0 hg0 x0 hx0
      refine ⟨?_, rfl⟩
      show rowId (annotateRow x0) = g0.1
      by_cases hm : count_mismatches x0.2 = 0
      · have hann : annotateRow x0 = x0.1 ++ onTargetMark := by simp [annotateRow, hm]
        rw [hann, rowId_append_mark x0.1 (hwf x0.1 hmem0)]
        exact hid0
      · have hann : annotateRow x0 = x0.1 := by simp [annotateRow, hm]
        rw [hann]
        exact hid0
  have hacc2 : ∀ g ∈ (acceptedGroupsOf level input).map
        (fun g => (g.1, g.2.map (fun x => (annotateRow x, rowSeq (annotateRow x))))),
      acceptB level g.2 false = true := by
    intro g hg
    obtain ⟨g0, hg0, rfl⟩ := List.mem_map.mp hg
    show acceptB level
        (g0.2.map (fun x => (annotateRow x, rowSeq (annotateRow x)))) false = true
    rw [acceptB_map_annotate level g0.2
      (fun x hx => ⟨(hrowsP g0 hg0 x hx).2.1, hwf x.1 (hrowsP g0 hg0 x hx).2.2⟩)]
    exact hAGacc g0 hg0
  have hAG2 : acceptedGroupsOf level (headersOf input
        ++ (acceptedGroupsOf level input).flatMap (fun g => g.2.map annotateRow))
      = (acceptedGroupsOf level input).map
          (fun g => (g.1, g.2.map (fun x => (annotateRow x, rowSeq (annotateRow x))))) := by
    show (pureGroups (entriesOf (headersOf input
        ++ (acceptedGroupsOf level input).flatMap (fun g => g.2.map annotateRow)))).filter
          (fun g => acceptB level g.2 false)
      = (acceptedGroupsOf level input).map
          (fun g => (g.1, g.2.map (fun x => (annotateRow x, rowSeq (annotateRow x)))))
    rw [hent2, hgroups2]
    exact List.filter_eq_self.mpr hacc2
  refine ⟨_, filter_offtargets_ok _ level hv hwf2, ?_⟩
  show (acceptedGroupsOf level (headersOf input
        ++ (acceptedGroupsOf level input).flatMap (fun g => g.2.map annotateRow))).map
      Prod.fst
    = (acceptedGroupsOf level input).map Prod.fst
  rw [hAG2, List.map_map]
  simp [Function.comp]

/-- Witness for `classifier_idempotent`: the output of a run on a single
accepted zero-mismatch row, re-classified at level high. -/
theorem classifier_idempotent_wit :
    ∃ out2, filter_offtargets
        (FilterResult.mk
          [['g', '\t', 'x', '\t', 'y', '\t', 'A', ' ', '#', ' ', '0', 'M', 'M']]
          [['g']]).outputLines "high" = .ok out2
      ∧ out2.acceptedIds
          = (FilterResult.mk
              [['g', '\t', 'x', '\t', 'y', '\t', 'A', ' ', '#', ' ', '0', 'M', 'M']]
              [['g']]).acceptedIds :=
  classifier_idempotent [['g', '\t', 'x', '\t', 'y', '\t', 'A']] "high" (Or.inl rfl)
    (by decide) _ rfl

end GRNA
